import Mathlib

/-!
Shallow embedding of the schedule-table pipeline of `src/bot.py`
(text cleaning, cell-metadata decoding, color-state classification,
time-range parsing, schedule building, interval merging, table
signature, table diff and the "looks unrendered" check), together with
theorems settling the specification claims about it.

Conventions of the embedding:
* Python strings are Lean `String`s; most character-level work happens
  on `List Char` via `String.data`.
* Wall-clock instants of a single day are minutes since local midnight
  (`Nat`); an overnight end is shifted by 1440 minutes, exactly as the
  source shifts `end` by one day.
* Cell state is the literal string `"on"` / `"off"`, as in the source.
-/

/-- Characters matched by Python's `\s` (and stripped by `str.strip()`):
ASCII whitespace plus the no-break space. -/
def pySpace (c : Char) : Bool :=
  c = ' ' ∨ c = '\t' ∨ c = '\n' ∨ c = '\r' ∨ c = '\x0b' ∨ c = '\x0c' ∨ c = '\xa0'

/-- Helper for `collapseWS`: the Bool records whether the previous
character was whitespace (so the run is already represented). -/
def collapseWSAux : Bool → List Char → List Char
  | _, [] => []
  | prevSp, c :: rest =>
    if pySpace c then
      if prevSp then collapseWSAux true rest else ' ' :: collapseWSAux true rest
    else c :: collapseWSAux false rest

/-- `_whitespace_re.sub(" ", s)`: replace every maximal run of
whitespace by a single space. -/
def collapseWS (l : List Char) : List Char := collapseWSAux false l

/-- Python `str.strip()` on a character list. -/
def pyStrip (l : List Char) : List Char :=
  ((l.dropWhile pySpace).reverse.dropWhile pySpace).reverse

/-- Python `str.lower()`, modelled as ASCII lowering (the vocabularies
compared against are all ASCII). -/
def lowerChars (l : List Char) : List Char := l.map Char.toLower

/-- Python `needle in hay` substring test on character lists. -/
def isSub : List Char → List Char → Bool
  | n, [] => n.isEmpty
  | n, h :: t => n.isPrefixOf (h :: t) || isSub n t

/-- `_clean_text` (bot.py:93-96): NBSP to space, collapse whitespace
runs to single spaces, strip. -/
def _clean_text (s : String) : String :=
  if s = "" then ""
  else String.mk (pyStrip (collapseWS (s.data.map fun c => if c = '\xa0' then ' ' else c)))

/-- `clean_cell` (bot.py:217-218): the text before the first `\x7b`
(the encoded style metadata), stripped. -/
def clean_cell (v : String) : String :=
  if v = "" then ""
  else String.mk (pyStrip (v.data.takeWhile fun c => c ≠ '\x7b'))

/-- `_parse_cell_meta` (bot.py:220-227): decode `text\x7bclasses|style\x7d`
into the lower-cased class string and style string. -/
def _parse_cell_meta (v : String) : String × String :=
  if v ≠ "" ∧ '\x7b' ∈ v.data ∧ '\x7d' ∈ v.data then
    let meta := ((v.data.dropWhile fun c => c ≠ '\x7b').drop 1).takeWhile fun c => c ≠ '\x7d'
    let classes := lowerChars (meta.takeWhile fun c => c ≠ '|')
    let style := if '|' ∈ meta then lowerChars ((meta.dropWhile fun c => c ≠ '|').drop 1) else []
    (String.mk classes, String.mk style)
  else ("", "")

/-- `_is_on_by_color` (bot.py:229-240). -/
def _is_on_by_color (classes style : String) : Bool :=
  let c := pyStrip (lowerChars classes.data)
  let s := (lowerChars style.data).filter fun ch => ch ≠ ' '
  isSub "item-enable".data c ||
  (isSub "#a1eebd".data s || isSub "rgb(161,238,189)".data s) ||
  (["table-success", "bg-success", "text-bg-success", "green"].any fun k => isSub k.data c) ||
  (["#28a745", "#198754", "#2ecc71", "#00ff00", "background:green",
    "background-color:green"].any fun h => isSub h.data s)

/-- `_is_off_by_color` (bot.py:242-257). -/
def _is_off_by_color (classes style : String) : Bool :=
  let c := pyStrip (lowerChars classes.data)
  let s := (lowerChars style.data).filter fun ch => ch ≠ ' '
  (isSub "item-off".data c || isSub "item-probably".data c) ||
  (isSub "#f6d6d6".data s || isSub "rgb(246,214,214)".data s ||
    isSub "#f6f7c4".data s || isSub "rgb(246,247,196)".data s) ||
  (["table-warning", "table-danger", "bg-warning", "bg-danger", "text-bg-warning",
    "text-bg-danger", "warning", "danger", "yellow", "red"].any fun k => isSub k.data c) ||
  (["#ffc107", "#ffcc00", "#f1c40f", "#dc3545", "#ff0000", "background:yellow",
    "background-color:yellow", "background:red", "background-color:red"].any
      fun h => isSub h.data s)

/-- `_cell_state_by_color` (bot.py:259-266): off signal first, then on
signal, then the text-equality fallback. -/
def _cell_state_by_color (queue_name v : String) : String :=
  let text := clean_cell v
  let cs := _parse_cell_meta v
  if _is_off_by_color cs.1 cs.2 then "off"
  else if _is_on_by_color cs.1 cs.2 then "on"
  else if text = queue_name then "off" else "on"

/-- Python `int()` on a token: strip whitespace, optional sign, decimal
digits (no digits means failure, as `int("")` raises). -/
def parsePyInt (l : List Char) : Option Int :=
  match pyStrip l with
  | [] => none
  | c :: rest =>
    let sd : Int × List Char :=
      if c = '-' then (-1, rest) else if c = '+' then (1, rest) else (1, c :: rest)
    if sd.2 ≠ [] ∧ sd.2.all Char.isDigit then
      some (sd.1 * ((sd.2.foldl (fun a ch => a * 10 + (ch.toNat - 48)) 0 : Nat) : Int))
    else none

/-- One side of the range: `h, m = map(int, a.split(":"))` followed by
`datetime.time(h, m)` validation; the result is minutes since midnight. -/
def parseHM (l : List Char) : Option Nat :=
  match l.splitOn ':' with
  | [hs, ms] =>
    match parsePyInt hs, parsePyInt ms with
    | some h, some m =>
      if 0 ≤ h ∧ h < 24 ∧ 0 ≤ m ∧ m < 60 then some (h.toNat * 60 + m.toNat) else none
    | _, _ => none
  | _ => none

/-- The two parsed instants of `parse_time_range` (bot.py:268-278)
before the overnight adjustment: strip, normalize dash variants,
remove spaces and NBSPs, split on the first dash, parse both sides. -/
def parse_time_range_raw (s : String) : Option (Nat × Nat) :=
  let t := ((pyStrip s.data).map fun c => if c = '–' ∨ c = '—' then '-' else c).filter
    fun c => c ≠ ' ' ∧ c ≠ '\xa0'
  if t = [] ∨ ¬ '-' ∈ t then none
  else
    match parseHM (t.takeWhile fun c => c ≠ '-'),
      parseHM ((t.dropWhile fun c => c ≠ '-').drop 1) with
    | some t1, some t2 => some (t1, t2)
    | _, _ => none

/-- `parse_time_range` (bot.py:268-283): if `end <= start` the end is
advanced by one day (1440 minutes). -/
def parse_time_range (s : String) : Option (Nat × Nat) :=
  (parse_time_range_raw s).map fun p => (p.1, if p.2 ≤ p.1 then p.2 + 1440 else p.2)

/-- The time-slot list of `build_schedule_map` (bot.py:291-296): each
row's first cell is cleaned and parsed; failing rows contribute nothing. -/
def scheduleTimes (rows : List (List String)) : List (Nat × Nat) :=
  rows.filterMap fun r => parse_time_range (match r with | [] => "" | c :: _ => clean_cell c)

/-- `cols = \x7bh: [] for h in norm_headers[1:]\x7d` (bot.py:290): an
insertion-ordered dict, duplicate keys collapsing onto the first. -/
def dictInit (ks : List String) : List (String × List String) :=
  ks.foldl (fun d k => if d.any fun p => p.1 = k then d else d ++ [(k, [])]) []

/-- `cols[h].append(v)` on the ordered dict. -/
def dictAppend (d : List (String × List String)) (k : String) (v : String) :
    List (String × List String) :=
  d.map fun p => if p.1 = k then (p.1, p.2 ++ [v]) else p

/-- The per-queue cell-text columns of `build_schedule_map`
(bot.py:290-299): for every row whose first cell parses, append the
cleaned cell of each non-time header (missing cells count as ""). -/
def scheduleCols (norm_tail : List String) (rows : List (List String)) :
    List (String × List String) :=
  rows.foldl
    (fun cols r =>
      match parse_time_range (match r with | [] => "" | c :: _ => clean_cell c) with
      | none => cols
      | some _ =>
        norm_tail.enum.foldl (fun cs p => dictAppend cs p.2 (_clean_text (r.getD (p.1 + 1) ""))) cols)
    (dictInit norm_tail)

/-- `build_schedule_map` (bot.py:285-300). -/
def build_schedule_map (headers : List String) (rows : List (List String)) :
    List (Nat × Nat) × List (String × List String) :=
  if headers = [] ∨ rows = [] then ([], [])
  else (scheduleTimes rows, scheduleCols ((headers.map _clean_text).drop 1) rows)

/-- `_column_index` (bot.py:302-306): index of the first header whose
cleaned text equals `q`, or -1. -/
def _column_index (headers : List String) (q : String) : Int :=
  match headers.findIdx? fun h => _clean_text h == q with
  | some i => (i : Int)
  | none => -1

/-- The run-merging loop of `intervals_for_queue` (bot.py:318-329).
The current open run is `(cst, cstart)`; at the final slot the run is
always closed at that slot's end. -/
def mergeGo (cst : String) (cstart : Nat) : List ((Nat × Nat) × String) → List (Nat × Nat × String)
  | [] => []
  | [(sl, s)] => if s ≠ cst then [(cstart, sl.1, cst), (sl.1, sl.2, s)] else [(cstart, sl.2, cst)]
  | (sl, s) :: x :: rest =>
    if s ≠ cst then (cstart, sl.1, cst) :: mergeGo s sl.1 (x :: rest)
    else mergeGo cst cstart (x :: rest)

/-- Entry to the merging loop: the first slot opens the run. -/
def mergeRuns (l : List ((Nat × Nat) × String)) : List (Nat × Nat × String) :=
  match l with
  | [] => []
  | (sl, s) :: _ => mergeGo s sl.1 l

/-- `intervals_for_queue` (bot.py:308-330). Note that the source
indexes `rows[i]` with the index `i` of the PARSED slot list, not the
row that produced the slot. -/
def intervals_for_queue (queue_name : String) (headers : List String)
    (rows : List (List String)) : List (Nat × Nat × String) × List String :=
  let tc := build_schedule_map headers rows
  let q := _clean_text queue_name
  if (¬ ∃ p ∈ tc.2, p.1 = q) ∨ tc.1 = [] then ([], tc.2.map Prod.fst)
  else
    let ci := _column_index headers q
    if ci < 0 then ([], tc.2.map Prod.fst)
    else
      (mergeRuns (tc.1.enum.map fun p =>
        (p.2, _cell_state_by_color q ((rows.getD p.1 []).getD ci.toNat ""))),
       tc.2.map Prod.fst)

/-- `val.split("\x7b")[0]`: the raw value with encoded style metadata
removed (no whitespace stripping, unlike `clean_cell`). -/
def stripBrace (s : String) : String :=
  String.mk (s.data.takeWhile fun c => c ≠ '\x7b')

/-- The time label of row `i` in `diff_tables` (bot.py:203): the new
row's first cell, else the old row's, else `row\x7bi+1\x7d`, style-stripped. -/
def diffTimeLabel (prev_row row : List String) (i : Nat) : String :=
  stripBrace (match row with
    | c :: _ => c
    | [] => match prev_row with
      | c :: _ => c
      | [] => "row" ++ toString (i + 1))

/-- The column label of column `j` in `diff_tables` (bot.py:209). -/
def diffColLabel (headers : List String) (j : Nat) : String :=
  headers.getD j ("col" ++ toString (j + 1))

/-- Style-strip the raw values of a diff entry, as the preview
entries of `diff_tables` do (bot.py:212). -/
def stripEntry (e : String × String × String × String) :
    String × String × String × String :=
  (e.1, e.2.1, stripBrace e.2.2.1, stripBrace e.2.2.2)

/-- One step of the inner loop of `diff_tables` (bot.py:205-212),
acting on the `(changes_preview, changes_all)` accumulator. -/
def diffStep (cap : Nat) (acc : List (String × String × String × String) ×
    List (String × String × String × String))
    (e : Option (String × String × String × String)) :
    List (String × String × String × String) × List (String × String × String × String) :=
  match e with
  | none => acc
  | some en =>
    (if acc.1.length < cap then acc.1 ++ [stripEntry en] else acc.1,
     acc.2 ++ [en])

/-- The candidate change entry at position `(i, j)`: `some` entry when
the old and new raw values differ, `none` otherwise (a missing row or
cell counts as the empty string). -/
def diffEntry (prev_rows rows : List (List String)) (headers : List String)
    (i j : Nat) : Option (String × String × String × String) :=
  let prev_row := prev_rows.getD i []
  let row := rows.getD i []
  let old := prev_row.getD j ""
  let nw := row.getD j ""
  if old ≠ nw then some (diffTimeLabel prev_row row i, diffColLabel headers j, old, nw)
  else none

/-- `diff_tables` (bot.py:197-213): nested loop over row indices up to
the longer table and column indices up to the wider row, accumulating
full entries and capped style-stripped preview entries. -/
def diff_tables (prev_headers : List String) (prev_rows : List (List String))
    (headers : List String) (rows : List (List String)) (cap : Nat) :
    List (String × String × String × String) × List (String × String × String × String) :=
  (List.range (max prev_rows.length rows.length)).foldl
    (fun acc i =>
      (List.range (max (prev_rows.getD i []).length (rows.getD i []).length)).foldl
        (fun acc2 j => diffStep cap acc2 (diffEntry prev_rows rows headers i j)) acc)
    ([], [])

/-- Modelled from the spec's description of `diff` (section 4.2), for
comparison with `diff_tables`: every index pair where old differs from
new yields exactly one entry `(timeLabel, columnName, oldRaw, newRaw)`,
in iteration order; equal positions yield nothing. -/
def diffSpecFull (prev_rows rows : List (List String)) (headers : List String) :
    List (String × String × String × String) :=
  (List.range (max prev_rows.length rows.length)).flatMap fun i =>
    (List.range (max (prev_rows.getD i []).length (rows.getD i []).length)).filterMap fun j =>
      diffEntry prev_rows rows headers i j

/-- Join a list of character lists with a separator, as Python
`sep.join(...)` (used by `table_signature` and `_looks_unrendered`). -/
def joinSep (sep : List Char) : List (List Char) → List Char
  | [] => []
  | [x] => x
  | x :: y :: rest => x ++ sep ++ joinSep sep (y :: rest)

/-- Template-placeholder test of `_looks_unrendered`: the text contains
a literal `\x7b\x7b` or `\x7d\x7d`. -/
def hasTpl (s : String) : Bool :=
  isSub ['\x7b', '\x7b'] s.data || isSub ['\x7d', '\x7d'] s.data

/-- `_looks_unrendered` (bot.py:142-152): reject when the space-joined
headers contain a placeholder marker, when there are at most one
header, or when at least two of the first ten rows contain a marker. -/
def _looks_unrendered (headers : List String) (rows : List (List String)) : Bool :=
  if isSub ['\x7b', '\x7b'] (joinSep [' '] (headers.map String.data)) ||
     isSub ['\x7d', '\x7d'] (joinSep [' '] (headers.map String.data)) then true
  else if headers = [] ∨ headers.length ≤ 1 then true
  else decide (2 ≤ ((rows.take 10).filter fun r => r.any fun c => hasTpl c).length)

/-- The byte string hashed by `table_signature` (bot.py:194), as
characters before UTF-8 encoding:
`"\n".join(headers) + "\n" + "\n".join("|".join(r) for r in rows)`. -/
def payloadChars (headers : List String) (rows : List (List String)) : List Char :=
  joinSep ['\n'] (headers.map String.data) ++ '\n' ::
    joinSep ['\n'] (rows.map fun r => joinSep ['|'] (r.map String.data))

/-- UTF-8 encoding of one character, as byte values. -/
def utf8Char (c : Char) : List Nat :=
  let n := c.toNat
  if n < 128 then [n]
  else if n < 2048 then [192 + n / 64, 128 + n % 64]
  else if n < 65536 then [224 + n / 4096, 128 + n / 64 % 64, 128 + n % 64]
  else [240 + n / 262144, 128 + n / 4096 % 64, 128 + n / 64 % 64, 128 + n % 64]

/-- UTF-8 encoding of a character list, as byte values. -/
def utf8Bytes (l : List Char) : List Nat := l.flatMap utf8Char

/-- SHA-256 round constants (FIPS 180-4). -/
def shaK : List Nat :=
  [1116352408, 1899447441, 3049323471, 3921009573, 961987163,
   1508970993, 2453635748, 2870763221, 3624381080, 310598401,
   607225278, 1426881987, 1925078388, 2162078206, 2614888103,
   3248222580, 3835390401, 4022224774, 264347078, 604807628,
   770255983, 1249150122, 1555081692, 1996064986, 2554220882,
   2821834349, 2952996808, 3210313671, 3336571891, 3584528711,
   113926993, 338241895, 666307205, 773529912, 1294757372,
   1396182291, 1695183700, 1986661051, 2177026350, 2456956037,
   2730485921, 2820302411, 3259730800, 3345764771, 3516065817,
   3600352804, 4094571909, 275423344, 430227734, 506948616,
   659060556, 883997877, 958139571, 1322822218, 1537002063,
   1747873779, 1955562222, 2024104815, 2227730452, 2361852424,
   2428436474, 2756734187, 3204031479, 3329325298]

/-- SHA-256 initial hash value (FIPS 180-4). -/
def shaH0 : List Nat :=
  [1779033703, 3144134277, 1013904242, 2773480762, 1359893119,
   2600822924, 528734635, 1541459225]

/-- Right rotation of a 32-bit word. -/
def rotr32 (n x : Nat) : Nat := (x / 2 ^ n + x % 2 ^ n * 2 ^ (32 - n)) % 4294967296

/-- SHA-256 padding: append `0x80`, zeros to 56 mod 64 bytes, then the
bit length as eight big-endian bytes. -/
def shaPad (m : List Nat) : List Nat :=
  m ++ 128 :: List.replicate ((119 - m.length % 64) % 64) 0 ++
    (List.range 8).map fun i => 8 * m.length / 2 ^ (8 * (7 - i)) % 256

/-- Big-endian 32-bit word from four bytes. -/
def bytesToWord (a b c d : Nat) : Nat := ((a * 256 + b) * 256 + c) * 256 + d

/-- The 64-entry message schedule of one block. -/
def shaSchedule (block : List Nat) : List Nat :=
  let w0 := (List.range 16).map fun t =>
    bytesToWord (block.getD (4 * t) 0) (block.getD (4 * t + 1) 0)
      (block.getD (4 * t + 2) 0) (block.getD (4 * t + 3) 0)
  (List.range 48).foldl
    (fun w t =>
      let i := t + 16
      let s0 := rotr32 7 (w.getD (i - 15) 0) ^^^ rotr32 18 (w.getD (i - 15) 0) ^^^
        w.getD (i - 15) 0 / 2 ^ 3
      let s1 := rotr32 17 (w.getD (i - 2) 0) ^^^ rotr32 19 (w.getD (i - 2) 0) ^^^
        w.getD (i - 2) 0 / 2 ^ 10
      w ++ [(w.getD (i - 16) 0 + s0 + w.getD (i - 7) 0 + s1) % 4294967296])
    w0

/-- SHA-256 compression of one 64-byte block into the hash state. -/
def shaCompress (H : List Nat) (block : List Nat) : List Nat :=
  let w := shaSchedule block
  let st := (List.range 64).foldl
    (fun (s : List Nat) t =>
      let e := s.getD 4 0
      let S1 := rotr32 6 e ^^^ rotr32 11 e ^^^ rotr32 25 e
      let ch := e &&& s.getD 5 0 ^^^ (4294967295 - e % 4294967296) &&& s.getD 6 0
      let T1 := (s.getD 7 0 + S1 + ch + shaK.getD t 0 + w.getD t 0) % 4294967296
      let a := s.getD 0 0
      let S0 := rotr32 2 a ^^^ rotr32 13 a ^^^ rotr32 22 a
      let mj := a &&& s.getD 1 0 ^^^ a &&& s.getD 2 0 ^^^ s.getD 1 0 &&& s.getD 2 0
      let T2 := (S0 + mj) % 4294967296
      [(T1 + T2) % 4294967296, a, s.getD 1 0, s.getD 2 0, (s.getD 3 0 + T1) % 4294967296,
       e, s.getD 5 0, s.getD 6 0])
    H
  (List.range 8).map fun i => (H.getD i 0 + st.getD i 0) % 4294967296

/-- SHA-256 over a byte list: the eight final 32-bit state words. -/
def sha256Words (msg : List Nat) : List Nat :=
  let padded := shaPad msg
  (List.range (padded.length / 64)).foldl
    (fun H i => shaCompress H ((padded.drop (64 * i)).take 64)) shaH0

/-- Big-endian value of a word list (words reduced mod 2^32). -/
def wordsToNat : List Nat → Nat
  | [] => 0
  | w :: ws => w % 4294967296 * 4294967296 ^ ws.length + wordsToNat ws

/-- The SHA-256 digest as a single natural number below 2^256. -/
def sha256Nat (msg : List Nat) : Nat := wordsToNat (sha256Words msg)

/-- One lower-case hex digit. -/
def hexChar (n : Nat) : Char := if n < 10 then Char.ofNat (48 + n) else Char.ofNat (87 + n)

/-- `hexdigest()` of a 256-bit value: 64 big-endian hex nibbles. -/
def hexDigest256 (n : Nat) : String :=
  String.mk ((List.range 64).map fun i => hexChar (n / 16 ^ (63 - i) % 16))

/-- `table_signature` (bot.py:193-195): SHA-256 hex digest of the
UTF-8 encoded payload. -/
def table_signature (headers : List String) (rows : List (List String)) : String :=
  hexDigest256 (sha256Nat (utf8Bytes (payloadChars headers rows)))

/-- A chained interval list from `a` to `b`: each interval starts where
the previous one ended, with nondecreasing boundaries. -/
def IvChain : Nat → List (Nat × Nat × String) → Nat → Prop
  | a, [], b => a = b
  | a, iv :: t, b => iv.1 = a ∧ a ≤ iv.2.1 ∧ IvChain iv.2.1 t b

/-- The end of the final slot of a slot/state list (the closing
boundary of the merge loop). -/
def lastEnd : List ((Nat × Nat) × String) → Nat
  | [] => 0
  | [(sl, _)] => sl.2
  | _ :: x :: rest => lastEnd (x :: rest)

/-- Prefix part of a join around a distinguished element. -/
def joinPre (sep : List Char) (pre : List (List Char)) : List Char :=
  pre.foldr (fun a acc => a ++ sep ++ acc) []

/-- Suffix part of a join around a distinguished element. -/
def joinSuf (sep : List Char) : List (List Char) → List Char
  | [] => []
  | x :: t => sep ++ joinSep sep (x :: t)

theorem parseHM_lt (l : List Char) (t : Nat) (h : parseHM l = some t) : t < 1440 := by
  unfold parseHM at h
  split at h
  · split at h
    · split at h
      · rename_i hb
        injection h with h
        omega
      · simp at h
    · simp at h
  · simp at h

theorem parse_raw_lt (s : String) (t1 t2 : Nat)
    (h : parse_time_range_raw s = some (t1, t2)) : t1 < 1440 ∧ t2 < 1440 := by
  unfold parse_time_range_raw at h
  dsimp only at h
  split at h
  · simp at h
  · split at h
    · rename_i u1 u2 h1 h2
      injection h with h
      rw [Prod.mk.injEq] at h
      obtain ⟨e1, e2⟩ := h
      subst e1; subst e2
      exact ⟨parseHM_lt _ _ h1, parseHM_lt _ _ h2⟩
    · simp at h

theorem parse_time_range_lt (s : String) (a b : Nat)
    (h : parse_time_range s = some (a, b)) : a < b ∧ a < 1440 := by
  unfold parse_time_range at h
  cases hr : parse_time_range_raw s with
  | none => rw [hr] at h; simp at h
  | some p =>
    rw [hr] at h
    obtain ⟨hlt1, hlt2⟩ := parse_raw_lt s p.1 p.2 hr
    simp only [Option.map_some'] at h
    injection h with h
    rw [Prod.mk.injEq] at h
    obtain ⟨e1, e2⟩ := h
    subst e1
    split at e2 <;> omega

/-- C8: `parse_time_range` parses `H:MM-H:MM` into the pair of parsed
instants, advancing the end by exactly one day (1440 minutes) whenever
the parsed end is at or before the parsed start, so the result always
has `end > start`; in particular `"23:30-00:30"` parses to 23:30 of
the current day and 00:30 of the next day, dash variants included. -/
theorem claim8 :
    (∀ s t1 t2, parse_time_range_raw s = some (t1, t2) →
      t1 < 1440 ∧ t2 < 1440 ∧
      parse_time_range s = some (t1, if t2 ≤ t1 then t2 + 1440 else t2)) ∧
    (∀ s a b, parse_time_range s = some (a, b) → a < b) ∧
    parse_time_range "23:30-00:30" = some (23 * 60 + 30, 0 * 60 + 30 + 1440) ∧
    parse_time_range "23:30–00:30" = some (1410, 1470) := by
  refine ⟨?_, ?_, by decide, by decide⟩
  · intro s t1 t2 h
    obtain ⟨h1, h2⟩ := parse_raw_lt s t1 t2 h
    refine ⟨h1, h2, ?_⟩
    rw [parse_time_range, h, Option.map_some']
  · intro s a b h
    exact (parse_time_range_lt s a b h).1

/-- Witness for C8 at the concrete overnight slot. -/
theorem claim8_witness :
    (1410 < 1440 ∧ 30 < 1440 ∧
      parse_time_range "23:30-00:30" = some (1410, if 30 ≤ 1410 then 30 + 1440 else 30)) ∧
    1410 < 1470 :=
  ⟨claim8.1 "23:30-00:30" 1410 30 (by decide),
   claim8.2.1 "23:30-00:30" 1410 1470 (by decide)⟩

/-- C9: the classifier is total and deterministic: it always returns
exactly `"on"` or `"off"` for every queue name and raw cell string,
and equal inputs give equal results. -/
theorem claim9 :
    (∀ q v, _cell_state_by_color q v = "on" ∨ _cell_state_by_color q v = "off") ∧
    (∀ q v q2 v2, q = q2 → v = v2 →
      _cell_state_by_color q v = _cell_state_by_color q2 v2) := by
  constructor
  · intro q v
    unfold _cell_state_by_color
    dsimp only
    split_ifs <;> simp
  · intro q v q2 v2 h1 h2
    rw [h1, h2]

/-- Witness for C9 at a concrete input. -/
theorem claim9_witness :
    (_cell_state_by_color "1.1" "x" = "on" ∨ _cell_state_by_color "1.1" "x" = "off") ∧
    _cell_state_by_color "1.1" "x" = _cell_state_by_color "1.1" "x" :=
  ⟨claim9.1 "1.1" "x", claim9.2 "1.1" "x" "1.1" "x" rfl rfl⟩

/-- C4: classification order is off-signal first, on-signal second,
text-equality fallback last: an off signal classifies `off` even when
an on signal is also present, an on signal without an off signal
classifies `on`, and with no color signal the cell classifies `off`
exactly when its cleaned display text equals the queue name (the
callers pass the queue's normalized name, bot.py:310,322). -/
theorem claim4 (q v : String) :
    (_is_off_by_color (_parse_cell_meta v).1 (_parse_cell_meta v).2 = true →
      _cell_state_by_color q v = "off") ∧
    (_is_off_by_color (_parse_cell_meta v).1 (_parse_cell_meta v).2 = false →
      _is_on_by_color (_parse_cell_meta v).1 (_parse_cell_meta v).2 = true →
      _cell_state_by_color q v = "on") ∧
    (_is_off_by_color (_parse_cell_meta v).1 (_parse_cell_meta v).2 = false →
      _is_on_by_color (_parse_cell_meta v).1 (_parse_cell_meta v).2 = false →
      (_cell_state_by_color q v = "off" ↔ clean_cell v = q)) := by
  refine ⟨?_, ?_, ?_⟩
  · intro h1
    unfold _cell_state_by_color
    dsimp only
    simp [h1]
  · intro h1 h2
    unfold _cell_state_by_color
    dsimp only
    simp [h1, h2]
  · intro h1 h2
    unfold _cell_state_by_color
    dsimp only
    simp only [h1, h2, Bool.false_eq_true, if_false]
    by_cases hc : clean_cell v = q
    · simp [hc]
    · simp [hc, show ("on" : String) ≠ "off" by decide]

/-- Witness for C4: a cell carrying both an off and an on class
signal classifies off; a colorless cell equal to the queue name
classifies off. -/
theorem claim4_witness :
    _cell_state_by_color "1.1" "z\x7bitem-off item-enable|\x7d" = "off" ∧
    _cell_state_by_color "1.1" "1.1" = "off" :=
  ⟨(claim4 "1.1" "z\x7bitem-off item-enable|\x7d").1 (by decide),
   ((claim4 "1.1" "1.1").2.2 (by decide) (by decide)).mpr (by decide)⟩

/-- C2 as claimed is violated by the code: when an unparseable row
precedes a parseable one, the single parsed slot is classified from
the unparseable row's cell (here `off`), while on the table with the
unparseable row deleted the same slot classifies `on`. -/
theorem claim2_divergence :
    (intervals_for_queue "1.1" ["Час", "1.1"]
      [["xx", "1.1\x7bitem-off|\x7d"], ["08:00-09:00", "g\x7bitem-enable|\x7d"]]).1 =
      [(480, 540, "off")] ∧
    (intervals_for_queue "1.1" ["Час", "1.1"]
      [["08:00-09:00", "g\x7bitem-enable|\x7d"]]).1 = [(480, 540, "on")] := by
  constructor <;> decide

/-- C1 as claimed fails when the parsed slots are not in increasing
start order: for this table the union of the produced intervals
contains 500 (= 08:20), while the claimed range
`[slot[0].start, slot[N-1].end) = [600, 540)` is empty. -/
theorem claim1_counterexample :
    (∃ iv ∈ (intervals_for_queue "1.1" ["Час", "1.1"]
        [["10:00-11:00", "x"], ["08:00-09:00", "1.1"]]).1,
      iv.1 ≤ 500 ∧ 500 < iv.2.1) ∧
    ¬ (((build_schedule_map ["Час", "1.1"]
          [["10:00-11:00", "x"], ["08:00-09:00", "1.1"]]).1.headD (0, 0)).1 ≤ 500 ∧
       500 < ((build_schedule_map ["Час", "1.1"]
          [["10:00-11:00", "x"], ["08:00-09:00", "1.1"]]).1.getLastD (0, 0)).2) := by
  constructor
  · decide
  · decide

/-- C7 as claimed fails: a placeholder marker in a single data row
does not make `_looks_unrendered` reject (the code only counts rows,
requiring at least two among the first ten), although the header list
has two entries and a row text contains the marker. -/
theorem claim7_counterexample :
    _looks_unrendered ["a", "b"] [["c\x7b\x7bd"]] = false ∧
    (∃ r ∈ [["c\x7b\x7bd"]], ∃ cl ∈ r, hasTpl cl = true) ∧
    2 ≤ (["a", "b"] : List String).length := by
  refine ⟨by decide, by decide, by decide⟩

/-- C10 as claimed fails on a table with headers but no rows: the
queue "2.2" matches no non-time header, yet the returned known-column
list is empty and misses the non-time header "1.1". -/
theorem claim10_counterexample :
    (∀ h ∈ (["Час", "1.1"] : List String).drop 1, ¬ _clean_text h = _clean_text "2.2") ∧
    (intervals_for_queue "2.2" ["Час", "1.1"] ([] : List (List String))).2 = [] ∧
    ¬ _clean_text "1.1" ∈ (intervals_for_queue "2.2" ["Час", "1.1"]
      ([] : List (List String))).2 := by
  refine ⟨by decide, by decide, by decide⟩

/-- Folding over a flattened list is the nested fold. -/
theorem foldlFlatMap {α β γ : Type} (f : α → List β) (g : γ → β → γ) (l : List α) :
    ∀ init : γ, (l.flatMap f).foldl g init = l.foldl (fun a x => (f x).foldl g a) init := by
  induction l with
  | nil => intro init; rfl
  | cons x t ih =>
    intro init
    simp only [List.flatMap_cons, List.foldl_append, List.foldl_cons]
    exact ih _

/-- Accumulator characterization of the diff loop: the full list
collects every present entry in order, the preview appends the
style-stripped entries until the cap is reached. -/
theorem diffStep_foldl (cap : Nat) (es : List (Option (String × String × String × String))) :
    ∀ pv al, es.foldl (diffStep cap) (pv, al) =
      (pv ++ ((es.filterMap id).map stripEntry).take (cap - pv.length),
       al ++ es.filterMap id) := by
  induction es with
  | nil => intro pv al; simp
  | cons e t ih =>
    intro pv al
    cases e with
    | none =>
      simp only [List.foldl_cons, diffStep, List.filterMap_cons, id_eq]
      exact ih pv al
    | some en =>
      simp only [List.foldl_cons, diffStep, List.filterMap_cons, id_eq, List.map_cons]
      rw [ih]
      by_cases hlen : pv.length < cap
      · rw [if_pos hlen]
        have hc : cap - (pv ++ [stripEntry en]).length = cap - (pv.length + 1) := by simp
        rw [hc]
        have hc2 : cap - pv.length = (cap - (pv.length + 1)) + 1 := by omega
        rw [hc2, List.take_succ_cons]
        simp [List.append_assoc]
      · rw [if_neg hlen]
        have hc : cap - pv.length = 0 := by omega
        rw [hc]
        simp [hc]

/-- `diff_tables` equals the declarative description: the full output
is exactly one entry per differing position in iteration order, and
the preview is the style-stripped prefix of at most `cap` entries. -/
theorem diff_tables_eq (prev_headers : List String) (prev_rows : List (List String))
    (headers : List String) (rows : List (List String)) (cap : Nat) :
    diff_tables prev_headers prev_rows headers rows cap =
      (((diffSpecFull prev_rows rows headers).map stripEntry).take cap,
       diffSpecFull prev_rows rows headers) := by
  have h1 : diff_tables prev_headers prev_rows headers rows cap =
      ((List.range (max prev_rows.length rows.length)).flatMap fun i =>
        (List.range (max (prev_rows.getD i []).length (rows.getD i []).length)).map
          fun j => diffEntry prev_rows rows headers i j).foldl (diffStep cap) ([], []) := by
    rw [foldlFlatMap]
    unfold diff_tables
    congr 1
    funext a i
    rw [List.foldl_map]
  have h2 : ((List.range (max prev_rows.length rows.length)).flatMap fun i =>
      (List.range (max (prev_rows.getD i []).length (rows.getD i []).length)).map
        fun j => diffEntry prev_rows rows headers i j).filterMap id =
      diffSpecFull prev_rows rows headers := by
    unfold diffSpecFull
    rw [List.filterMap_flatMap]
    congr 1
    funext i
    rw [List.filterMap_map]
    rfl
  rw [h1, diffStep_foldl, h2]
  simp

/-- C5: the full diff output carries exactly one entry, with both raw
values, for every position where old and new differ (missing rows or
cells counting as the empty string) and none for equal positions; the
preview is the same entry sequence with raw values style-stripped,
truncated to at most `cap` entries. -/
theorem claim5 (prev_headers : List String) (prev_rows : List (List String))
    (headers : List String) (rows : List (List String)) (cap : Nat) :
    (diff_tables prev_headers prev_rows headers rows cap).2 =
      diffSpecFull prev_rows rows headers ∧
    (diff_tables prev_headers prev_rows headers rows cap).1 =
      ((diffSpecFull prev_rows rows headers).map stripEntry).take cap ∧
    (diff_tables prev_headers prev_rows headers rows cap).1.length ≤ cap := by
  rw [diff_tables_eq]
  refine ⟨rfl, rfl, ?_⟩
  exact (List.length_take _ _).trans_le (min_le_left _ _)

/-- C6: diffing a table against itself yields an empty preview and an
empty full change list. -/
theorem claim6 (headers : List String) (rows : List (List String)) (cap : Nat) :
    diff_tables headers rows headers rows cap = ([], []) := by
  rw [diff_tables_eq]
  have h : diffSpecFull rows rows headers = [] := by
    unfold diffSpecFull
    apply List.flatMap_eq_nil_iff.mpr
    intro i _
    apply List.filterMap_eq_nil_iff.mpr
    intro j _
    unfold diffEntry
    simp
  rw [h]
  simp

/-- `isSub` is the existence of an occurrence. -/
theorem isSub_iff (p : List Char) : ∀ l, isSub p l = true ↔ ∃ a b, l = a ++ p ++ b := by
  intro l
  induction l with
  | nil =>
    simp only [isSub, List.isEmpty_iff]
    constructor
    · rintro rfl
      exact ⟨[], [], rfl⟩
    · rintro ⟨a, b, h⟩
      have hl := congrArg List.length h
      simp only [List.length_nil, List.length_append] at hl
      exact List.length_eq_zero.mp (by omega)
  | cons h t ih =>
    simp only [isSub, Bool.or_eq_true, ih]
    constructor
    · rintro (hp | ⟨a, b, rfl⟩)
      · obtain ⟨b, hb⟩ := List.isPrefixOf_iff_prefix.mp hp
        refine ⟨[], b, ?_⟩
        rw [List.nil_append]
        exact hb.symm
      · exact ⟨h :: a, b, rfl⟩
    · rintro ⟨a, b, hab⟩
      cases a with
      | nil =>
        left
        rw [List.nil_append] at hab
        rw [List.isPrefixOf_iff_prefix]
        exact ⟨b, hab.symm⟩
      | cons x a2 =>
        right
        rw [List.cons_append, List.cons_append, List.cons.injEq] at hab
        exact ⟨a2, b, hab.2⟩

/-- A two-character pattern avoiding the separator occurs in
`x ++ ' ' :: y` exactly when it occurs in `x` or in `y`. -/
theorem isSub_two_append (c1 c2 : Char) (h1 : c1 ≠ ' ') (h2 : c2 ≠ ' ')
    (x y : List Char) :
    isSub [c1, c2] (x ++ ' ' :: y) = true ↔
      (isSub [c1, c2] x = true ∨ isSub [c1, c2] y = true) := by
  rw [isSub_iff, isSub_iff, isSub_iff]
  constructor
  · rintro ⟨a, b, hab⟩
    rw [List.append_assoc] at hab
    rcases List.append_eq_append_iff.mp hab with ⟨w, hw1, hw2⟩ | ⟨w, hw1, hw2⟩
    · cases w with
      | nil =>
        rw [List.nil_append] at hw2
        injection hw2 with e1 _
        exact absurd e1.symm h1
      | cons c w2 =>
        rw [List.cons_append] at hw2
        injection hw2 with e1 e2
        right
        refine ⟨w2, b, ?_⟩
        rw [List.append_assoc]
        exact e2
    · cases w with
      | nil =>
        rw [List.nil_append] at hw2
        injection hw2 with e1 _
        exact absurd e1 h1
      | cons c w2 =>
        rw [List.cons_append] at hw2
        injection hw2 with e1 e2
        cases w2 with
        | nil =>
          simp only [List.append_eq, List.nil_append] at e2
          injection e2 with e3 _
          exact absurd e3 h2
        | cons c3 w3 =>
          simp only [List.append_eq, List.cons_append] at e2
          injection e2 with e3 e4
          left
          refine ⟨a, w3, ?_⟩
          rw [hw1, e1, e3]
          simp
  · rintro (⟨a, b, rfl⟩ | ⟨a, b, rfl⟩)
    · exact ⟨a, b ++ ' ' :: y, by simp⟩
    · exact ⟨x ++ ' ' :: a, b, by simp⟩

/-- A two-character pattern avoiding the separator occurs in the
space-join exactly when it occurs in one of the joined pieces. -/
theorem isSub_two_join (c1 c2 : Char) (h1 : c1 ≠ ' ') (h2 : c2 ≠ ' ') :
    ∀ ls : List (List Char),
      (isSub [c1, c2] (joinSep [' '] ls) = true ↔ ∃ l ∈ ls, isSub [c1, c2] l = true) := by
  intro ls
  induction ls with
  | nil => simp [joinSep, isSub]
  | cons x t ih =>
    cases t with
    | nil => simp [joinSep]
    | cons y rest =>
      have hj : joinSep [' '] (x :: y :: rest) = x ++ ' ' :: joinSep [' '] (y :: rest) := by
        rw [joinSep]
        simp
      rw [hj, isSub_two_append c1 c2 h1 h2, ih]
      simp

/-- C7 amended: the extracted table is rejected as unrendered iff the
header list has at most one entry, or some HEADER text contains a
placeholder marker, or at least two of the first ten data rows contain
a marker in some cell (a marker in a single row does not reject). -/
theorem claim7 (headers : List String) (rows : List (List String)) :
    _looks_unrendered headers rows = true ↔
      (headers.length ≤ 1 ∨ (∃ h ∈ headers, hasTpl h = true) ∨
        2 ≤ ((rows.take 10).filter fun r => r.any fun c => hasTpl c).length) := by
  have hAiff : (isSub ['\x7b', '\x7b'] (joinSep [' '] (headers.map String.data)) ||
      isSub ['\x7d', '\x7d'] (joinSep [' '] (headers.map String.data))) = true ↔
      ∃ h ∈ headers, hasTpl h = true := by
    rw [Bool.or_eq_true, isSub_two_join _ _ (by decide) (by decide),
      isSub_two_join _ _ (by decide) (by decide)]
    constructor
    · rintro (⟨l, hl, hs⟩ | ⟨l, hl, hs⟩) <;>
        obtain ⟨h, hh, rfl⟩ := List.mem_map.mp hl
      · exact ⟨h, hh, by rw [hasTpl, hs, Bool.true_or]⟩
      · exact ⟨h, hh, by rw [hasTpl, hs, Bool.or_true]⟩
    · rintro ⟨h, hh, ht⟩
      rw [hasTpl, Bool.or_eq_true] at ht
      rcases ht with ht | ht
      · exact Or.inl ⟨h.data, List.mem_map_of_mem _ hh, ht⟩
      · exact Or.inr ⟨h.data, List.mem_map_of_mem _ hh, ht⟩
  unfold _looks_unrendered
  split_ifs with hA hB
  · simp only [true_iff]
    exact Or.inr (Or.inl (hAiff.mp hA))
  · simp only [true_iff]
    rcases hB with hB | hB
    · exact Or.inl (by rw [hB]; decide)
    · exact Or.inl hB
  · rw [decide_eq_true_iff]
    constructor
    · intro hc
      exact Or.inr (Or.inr hc)
    · rintro (hc | hc | hc)
      · exact absurd (Or.inr hc) hB
      · exact absurd (hAiff.mpr hc) hA
      · exact hc

/-- The keys of the initialized column dict are exactly the normalized
non-time headers. -/
theorem dictInit_mem (k : String) : ∀ ks : List String, ∀ d : List (String × List String),
    ((ks.foldl (fun d2 k2 => if d2.any fun p => p.1 = k2 then d2 else d2 ++ [(k2, [])]) d).map
        Prod.fst).contains k = true ↔
      (d.map Prod.fst).contains k = true ∨ k ∈ ks := by
  intro ks
  induction ks with
  | nil => simp
  | cons a t ih =>
    intro d
    rw [List.foldl_cons, ih]
    by_cases ha : d.any fun p => p.1 = a
    · rw [if_pos ha]
      constructor
      · rintro (hd | ht)
        · exact Or.inl hd
        · exact Or.inr (List.mem_cons_of_mem a ht)
      · rintro (hd | hk)
        · exact Or.inl hd
        · rcases List.mem_cons.mp hk with rfl | ht
          · obtain ⟨p, hp, hpk⟩ := List.any_eq_true.mp ha
            left
            rw [List.contains_eq_any_beq, List.any_eq_true]
            exact ⟨p.1, List.mem_map_of_mem _ hp, by rw [of_decide_eq_true hpk]; simp⟩
          · exact Or.inr ht
    · rw [if_neg ha]
      constructor
      · rintro (hd | ht)
        · rw [List.map_append, List.contains_eq_any_beq, List.any_append, Bool.or_eq_true] at hd
          rcases hd with hd | hsing
          · exact Or.inl (by rw [List.contains_eq_any_beq]; exact hd)
          · simp only [List.map_cons, List.map_nil, List.any_cons, List.any_nil,
              Bool.or_false] at hsing
            exact Or.inr (List.mem_cons.mpr (Or.inl (by exact beq_iff_eq.mp hsing)))
        · exact Or.inr (List.mem_cons_of_mem a ht)
      · rintro (hd | hk)
        · left
          rw [List.map_append, List.contains_eq_any_beq, List.any_append, Bool.or_eq_true]
          exact Or.inl (by rw [List.contains_eq_any_beq] at hd; exact hd)
        · rcases List.mem_cons.mp hk with rfl | ht
          · left
            rw [List.map_append, List.contains_eq_any_beq, List.any_append, Bool.or_eq_true]
            right
            simp
          · exact Or.inr ht

/-- Key membership in the initialized dict is membership in the key
list. -/
theorem dictInit_keys (ks : List String) (k : String) :
    k ∈ (dictInit ks).map Prod.fst ↔ k ∈ ks := by
  have h := dictInit_mem k ks []
  simp only [List.map_nil, List.contains_nil, Bool.false_eq_true, false_or] at h
  rw [← List.elem_iff, ← h]
  rfl

/-- Appending a value never changes the dict's key list. -/
theorem dictAppend_keys (d : List (String × List String)) (k v : String) :
    (dictAppend d k v).map Prod.fst = d.map Prod.fst := by
  unfold dictAppend
  rw [List.map_map]
  congr 1
  funext p
  by_cases hp : p.1 = k <;> simp [hp]

/-- The inner per-row fold of `scheduleCols` preserves the key list. -/
theorem scheduleColsRow_keys (r : List String) :
    ∀ (l : List (Nat × String)) (d : List (String × List String)),
      (l.foldl (fun cs p => dictAppend cs p.2 (_clean_text (r.getD (p.1 + 1) ""))) d).map
        Prod.fst = d.map Prod.fst := by
  intro l
  induction l with
  | nil => intro d; rfl
  | cons a t ih =>
    intro d
    rw [List.foldl_cons, ih, dictAppend_keys]

/-- `scheduleCols` has exactly the keys of the initialized dict. -/
theorem scheduleCols_keys (norm_tail : List String) (rows : List (List String)) :
    (scheduleCols norm_tail rows).map Prod.fst = (dictInit norm_tail).map Prod.fst := by
  unfold scheduleCols
  generalize dictInit norm_tail = d
  induction rows generalizing d with
  | nil => rfl
  | cons r t ih =>
    rw [List.foldl_cons]
    cases hp : parse_time_range (match r with | [] => "" | c :: _ => clean_cell c) with
    | none => rw [ih]
    | some p => rw [ih, scheduleColsRow_keys]

/-- A satisfied predicate makes `findIdx?` succeed. -/
theorem findIdx?_isSome {α : Type} (p : α → Bool) (l : List α)
    (h : ∃ x ∈ l, p x = true) : (l.findIdx? p).isSome = true := by
  cases hfi : l.findIdx? p with
  | none =>
    obtain ⟨x, hx, hpx⟩ := h
    have := List.findIdx?_eq_none_iff.mp hfi x hx
    rw [hpx] at this
    exact absurd this (by decide)
  | some i => rfl

/-- C10 amended: for a table with at least one row, a queue name whose
normalized form matches no non-time header yields an empty interval
list together with a known-column list containing every normalized
non-time header (with no rows the code returns an empty column list). -/
theorem claim10 (queue_name : String) (headers : List String) (rows : List (List String))
    (hrows : rows ≠ [])
    (hq : ∀ h ∈ headers.drop 1, ¬ _clean_text h = _clean_text queue_name) :
    (intervals_for_queue queue_name headers rows).1 = [] ∧
    ∀ h ∈ headers.drop 1, _clean_text h ∈ (intervals_for_queue queue_name headers rows).2 := by
  cases headers with
  | nil =>
    have hbuild : build_schedule_map [] rows = ([], []) := by
      unfold build_schedule_map
      rw [if_pos (Or.inl rfl)]
    have hcond : (¬ ∃ p ∈ (build_schedule_map ([] : List String) rows).2,
        p.1 = _clean_text queue_name) ∨ (build_schedule_map ([] : List String) rows).1 = [] := by
      rw [hbuild]
      left
      rintro ⟨p, hp, _⟩
      exact absurd hp (List.not_mem_nil p)
    constructor
    · unfold intervals_for_queue
      dsimp only
      rw [if_pos hcond]
    · intro h hh
      exact absurd hh (List.not_mem_nil h)
  | cons hh tl =>
    have hne : ¬ ((hh :: tl : List String) = [] ∨ rows = []) := by
      rintro (h | h)
      · exact List.cons_ne_nil hh tl h
      · exact hrows h
    have hbuild : build_schedule_map (hh :: tl) rows =
        (scheduleTimes rows, scheduleCols (tl.map _clean_text) rows) := by
      unfold build_schedule_map
      rw [if_neg hne]
      simp
    have hkeys : (scheduleCols (tl.map _clean_text) rows).map Prod.fst =
        (dictInit (tl.map _clean_text)).map Prod.fst := scheduleCols_keys _ _
    have hq2 : ¬ ∃ p ∈ scheduleCols (tl.map _clean_text) rows,
        p.1 = _clean_text queue_name := by
      rintro ⟨p, hp, hpq⟩
      have hmem : _clean_text queue_name ∈
          (scheduleCols (tl.map _clean_text) rows).map Prod.fst :=
        List.mem_map.mpr ⟨p, hp, hpq⟩
      rw [hkeys, dictInit_keys] at hmem
      obtain ⟨h, hht, hcl⟩ := List.mem_map.mp hmem
      exact hq h hht hcl
    unfold intervals_for_queue
    dsimp only
    rw [hbuild]
    rw [if_pos (Or.inl hq2)]
    constructor
    · rfl
    · intro h hht
      dsimp only
      rw [hkeys, dictInit_keys]
      exact List.mem_map_of_mem _ hht

/-- Witness for C10 at a concrete table with one row. -/
theorem claim10_witness :
    (intervals_for_queue "9.9" ["Час", "1.1"] [["08:00-09:00", "x"]]).1 = [] ∧
    ∀ h ∈ (["Час", "1.1"] : List String).drop 1,
      _clean_text h ∈ (intervals_for_queue "9.9" ["Час", "1.1"] [["08:00-09:00", "x"]]).2 :=
  claim10 "9.9" ["Час", "1.1"] [["08:00-09:00", "x"]] (by decide) (by decide)

theorem chain_le {a b : Nat} : ∀ {l : List (Nat × Nat × String)}, IvChain a l b → a ≤ b := by
  intro l
  induction l generalizing a with
  | nil => intro h; exact Nat.le_of_eq h
  | cons iv t ih =>
    rintro ⟨h1, h2, h3⟩
    exact h2.trans (ih h3)

theorem chain_mem {a b : Nat} : ∀ {l : List (Nat × Nat × String)}, IvChain a l b →
    ∀ iv ∈ l, a ≤ iv.1 ∧ iv.1 ≤ iv.2.1 ∧ iv.2.1 ≤ b := by
  intro l
  induction l generalizing a with
  | nil =>
    rintro _ iv hiv
    exact absurd hiv (List.not_mem_nil iv)
  | cons hd t ih =>
    rintro ⟨h1, h2, h3⟩ iv hiv
    rcases List.mem_cons.mp hiv with rfl | hivt
    · exact ⟨Nat.le_of_eq h1.symm, h1.symm ▸ h2, chain_le h3⟩
    · obtain ⟨k1, k2, k3⟩ := ih h3 iv hivt
      exact ⟨h2.trans k1, k2, k3⟩

theorem chain_pairwise {a b : Nat} : ∀ {l : List (Nat × Nat × String)}, IvChain a l b →
    l.Pairwise fun p q => p.2.1 ≤ q.1 := by
  intro l
  induction l generalizing a with
  | nil => intro _; exact List.Pairwise.nil
  | cons hd t ih =>
    rintro ⟨h1, h2, h3⟩
    exact List.Pairwise.cons (fun q hq => (chain_mem h3 q hq).1) (ih h3)

theorem chain_union {a b : Nat} : ∀ {l : List (Nat × Nat × String)}, IvChain a l b →
    ∀ x : Nat, (∃ iv ∈ l, iv.1 ≤ x ∧ x < iv.2.1) ↔ (a ≤ x ∧ x < b) := by
  intro l
  induction l generalizing a with
  | nil =>
    rintro h x
    have hab : a = b := h
    constructor
    · rintro ⟨iv, hiv, _⟩
      exact absurd hiv (List.not_mem_nil iv)
    · intro hx
      omega
  | cons hd t ih =>
    rintro ⟨h1, h2, h3⟩ x
    have hb := chain_le h3
    constructor
    · rintro ⟨iv, hiv, hx1, hx2⟩
      rcases List.mem_cons.mp hiv with rfl | hivt
      · omega
      · have := (ih h3 x).mp ⟨iv, hivt, hx1, hx2⟩
        omega
    · intro hx
      by_cases hsplit : x < hd.2.1
      · exact ⟨hd, List.mem_cons_self hd t, by omega⟩
      · obtain ⟨iv, hivt, hiv2⟩ := (ih h3 x).mpr (by omega)
        exact ⟨iv, List.mem_cons_of_mem hd hivt, hiv2⟩

/-- The merge loop produces a chain from the open run's start to the
final slot's end, provided slots are nondecreasing by start, each slot
has start < end, and the open run started at or before the first slot. -/
theorem mergeGo_chain : ∀ l : List ((Nat × Nat) × String), l ≠ [] →
    (∀ p ∈ l, p.1.1 < p.1.2) → List.Chain' (fun p q => p.1.1 ≤ q.1.1) l →
    ∀ cst cstart, cstart ≤ (l.headD ((0, 0), "")).1.1 →
    IvChain cstart (mergeGo cst cstart l) (lastEnd l) := by
  intro l
  induction l with
  | nil => intro h; exact absurd rfl h
  | cons x t ih =>
    intro _ hlt hch cst cstart hhead
    have hxlt : x.1.1 < x.1.2 := hlt x (List.mem_cons_self x t)
    have hhead2 : cstart ≤ x.1.1 := by
      have he : ((x :: t).headD ((0, 0), "")) = x := rfl
      rw [he] at hhead
      exact hhead
    cases t with
    | nil =>
      rw [mergeGo, lastEnd]
      by_cases hs : x.2 ≠ cst
      · rw [if_pos hs]
        exact ⟨rfl, hhead2, rfl, Nat.le_of_lt hxlt, rfl⟩
      · rw [if_neg hs]
        refine ⟨rfl, ?_, rfl⟩
        show cstart ≤ x.1.2
        omega
    | cons y rest =>
      have hch2 : List.Chain' (fun p q => p.1.1 ≤ q.1.1) (y :: rest) :=
        (List.chain'_cons.mp hch).2
      have hxy : x.1.1 ≤ y.1.1 := (List.chain'_cons.mp hch).1
      have hlt2 : ∀ p ∈ y :: rest, p.1.1 < p.1.2 :=
        fun p hp => hlt p (List.mem_cons_of_mem x hp)
      rw [mergeGo]
      by_cases hs : x.2 ≠ cst
      · rw [if_pos hs]
        refine ⟨rfl, hhead2, ?_⟩
        have := ih (List.cons_ne_nil y rest) hlt2 hch2 x.2 x.1.1 hxy
        rw [lastEnd]
        exact this
      · rw [if_neg hs]
        have := ih (List.cons_ne_nil y rest) hlt2 hch2 cst cstart (by
          have he : ((y :: rest).headD ((0, 0), "")).1.1 = y.1.1 := rfl
          rw [he]
          omega)
        rw [lastEnd]
        exact this

theorem mergeGo_length : ∀ (l : List ((Nat × Nat) × String)) cst cstart,
    (mergeGo cst cstart l).length ≤ l.length + 1 := by
  intro l
  induction l with
  | nil => intro cst cstart; rw [mergeGo]; exact Nat.zero_le 1
  | cons x t ih =>
    intro cst cstart
    cases t with
    | nil =>
      rw [mergeGo]
      by_cases hs : x.2 ≠ cst
      · rw [if_pos hs]; exact Nat.le_refl 2
      · rw [if_neg hs]; exact Nat.le_succ 1
    | cons y rest =>
      rw [mergeGo]
      by_cases hs : x.2 ≠ cst
      · rw [if_pos hs]
        have := ih x.2 x.1.1
        simp only [List.length_cons] at this ⊢
        omega
      · rw [if_neg hs]
        have := ih cst cstart
        simp only [List.length_cons] at this ⊢
        omega

theorem mergeRuns_length (l : List ((Nat × Nat) × String)) :
    (mergeRuns l).length ≤ l.length := by
  cases l with
  | nil => exact Nat.le_refl 0
  | cons x t =>
    rw [mergeRuns]
    cases t with
    | nil =>
      rw [mergeGo, if_neg (by simp)]
      exact Nat.le_refl 1
    | cons y rest =>
      rw [mergeGo, if_neg (by simp)]
      have := mergeGo_length (y :: rest) x.2 x.1.1
      simp only [List.length_cons] at this ⊢
      omega

theorem mergeRuns_chain (l : List ((Nat × Nat) × String)) (h : l ≠ [])
    (hlt : ∀ p ∈ l, p.1.1 < p.1.2) (hch : List.Chain' (fun p q => p.1.1 ≤ q.1.1) l) :
    IvChain (l.headD ((0, 0), "")).1.1 (mergeRuns l) (lastEnd l) := by
  cases l with
  | nil => exact absurd rfl h
  | cons x t =>
    rw [mergeRuns]
    exact mergeGo_chain (x :: t) (List.cons_ne_nil x t) hlt hch x.2 x.1.1 (Nat.le_refl _)

/-- The closing boundary is the last slot's end. -/
theorem lastEnd_eq : ∀ l : List ((Nat × Nat) × String),
    lastEnd l = ((l.map Prod.fst).getLastD (0, 0)).2 := by
  intro l
  induction l with
  | nil => rfl
  | cons x t ih =>
    cases t with
    | nil => rfl
    | cons y rest =>
      rw [lastEnd, ih]
      simp only [List.map_cons, List.getLastD_cons]

/-- The opening boundary is the first slot's start. -/
theorem headD_fst (l : List ((Nat × Nat) × String)) (h : l ≠ []) :
    (l.map Prod.fst).headD (0, 0) = (l.headD ((0, 0), "")).1 := by
  cases l with
  | nil => exact absurd rfl h
  | cons x t => rfl

/-- Properties of the merge loop over an enumerated slot list with an
arbitrary per-index state function: at most one interval per slot,
ordered, non-overlapping, and union exactly the half-open range from
the first slot's start to the last slot's end. -/
theorem mergeRuns_props (times : List (Nat × Nat)) (st : Nat × (Nat × Nat) → String)
    (hne : times ≠ []) (hlt : ∀ t ∈ times, t.1 < t.2)
    (hch : List.Chain' (fun a b : Nat × Nat => a.1 ≤ b.1) times) :
    (mergeRuns (times.enum.map fun p => (p.2, st p))).length ≤ times.length ∧
    (mergeRuns (times.enum.map fun p => (p.2, st p))).Pairwise (fun p q => p.1 ≤ q.1) ∧
    (mergeRuns (times.enum.map fun p => (p.2, st p))).Pairwise (fun p q => p.2.1 ≤ q.1) ∧
    ∀ x : Nat,
      (∃ iv ∈ mergeRuns (times.enum.map fun p => (p.2, st p)), iv.1 ≤ x ∧ x < iv.2.1) ↔
        ((times.headD (0, 0)).1 ≤ x ∧ x < (times.getLastD (0, 0)).2) := by
  set L := times.enum.map fun p => (p.2, st p) with hLdef
  have hLfst : L.map Prod.fst = times := by
    rw [hLdef, List.map_map]
    have hcomp : (Prod.fst ∘ fun p : Nat × (Nat × Nat) => ((p.2 : Nat × Nat), st p)) =
        Prod.snd := rfl
    rw [hcomp, List.enum_map_snd]
  have hLne : L ≠ [] := by
    intro h0
    apply hne
    rw [← hLfst, h0, List.map_nil]
  have hLlt : ∀ p ∈ L, p.1.1 < p.1.2 := by
    intro p hp
    have hm : p.1 ∈ L.map Prod.fst := List.mem_map_of_mem _ hp
    rw [hLfst] at hm
    exact hlt p.1 hm
  have hLch : List.Chain' (fun p q : (Nat × Nat) × String => p.1.1 ≤ q.1.1) L := by
    have hm := hch
    rw [← hLfst] at hm
    exact (List.chain'_map Prod.fst).mp hm
  have hchain := mergeRuns_chain L hLne hLlt hLch
  have hhead : (L.headD ((0, 0), "")).1.1 = (times.headD (0, 0)).1 := by
    rw [← hLfst, headD_fst L hLne]
  have hlast : lastEnd L = (times.getLastD (0, 0)).2 := by
    rw [lastEnd_eq, hLfst]
  refine ⟨?_, ?_, ?_, ?_⟩
  · have h1 := mergeRuns_length L
    have h2 : L.length = times.length := by
      rw [hLdef, List.length_map, List.enum_length]
    omega
  · refine (chain_pairwise hchain).imp_of_mem ?_
    intro p q hp _ hpq
    have := (chain_mem hchain p hp).2.1
    omega
  · exact chain_pairwise hchain
  · intro x
    have hu := chain_union hchain x
    rw [hhead, hlast] at hu
    exact hu

/-- Every slot produced by `build_schedule_map` has start < end. -/
theorem build_times_lt (headers : List String) (rows : List (List String)) :
    ∀ t ∈ (build_schedule_map headers rows).1, t.1 < t.2 := by
  intro t ht
  unfold build_schedule_map at ht
  split at ht
  · exact absurd ht (List.not_mem_nil t)
  · obtain ⟨a, b⟩ := t
    obtain ⟨r, _, hpr⟩ := List.mem_filterMap.mp ht
    exact (parse_time_range_lt _ a b hpr).1

/-- C1 amended: if the table yields at least one parsed slot, the
queue's normalized name matches a non-time header, and the parsed
slots are in nondecreasing start order (as on the monitored page),
then `intervals_for_queue` returns at most one interval per slot,
ordered, pairwise non-overlapping, whose union is exactly the
half-open range from the first slot's start to the last slot's end.
Without the slot-order hypothesis the union equality fails
(`claim1_counterexample`). -/
theorem claim1 (queue_name : String) (headers : List String) (rows : List (List String))
    (hne : (build_schedule_map headers rows).1 ≠ [])
    (hmem : ∃ h ∈ headers.drop 1, _clean_text h = _clean_text queue_name)
    (hmono : List.Chain' (fun a b : Nat × Nat => a.1 ≤ b.1)
      (build_schedule_map headers rows).1) :
    (intervals_for_queue queue_name headers rows).1.length ≤
      (build_schedule_map headers rows).1.length ∧
    (intervals_for_queue queue_name headers rows).1.Pairwise (fun p q => p.1 ≤ q.1) ∧
    (intervals_for_queue queue_name headers rows).1.Pairwise (fun p q => p.2.1 ≤ q.1) ∧
    ∀ x : Nat,
      (∃ iv ∈ (intervals_for_queue queue_name headers rows).1, iv.1 ≤ x ∧ x < iv.2.1) ↔
        (((build_schedule_map headers rows).1.headD (0, 0)).1 ≤ x ∧
          x < ((build_schedule_map headers rows).1.getLastD (0, 0)).2) := by
  have hcond : ¬ (headers = [] ∨ rows = []) := by
    intro hor
    apply hne
    unfold build_schedule_map
    rw [if_pos hor]
  have hbuild : build_schedule_map headers rows =
      (scheduleTimes rows, scheduleCols ((headers.map _clean_text).drop 1) rows) := by
    unfold build_schedule_map
    rw [if_neg hcond]
  have hntmem : _clean_text queue_name ∈ (headers.map _clean_text).drop 1 := by
    obtain ⟨h, hh, hcl⟩ := hmem
    rw [← List.map_drop]
    exact hcl ▸ List.mem_map_of_mem _clean_text hh
  have hcols : ∃ p ∈ (build_schedule_map headers rows).2,
      p.1 = _clean_text queue_name := by
    rw [hbuild]
    have hm : _clean_text queue_name ∈
        (scheduleCols ((headers.map _clean_text).drop 1) rows).map Prod.fst := by
      rw [scheduleCols_keys, dictInit_keys]
      exact hntmem
    exact List.mem_map.mp hm
  have hci : ¬ _column_index headers (_clean_text queue_name) < 0 := by
    obtain ⟨h, hh, hcl⟩ := hmem
    have hsome := findIdx?_isSome (fun x => _clean_text x == _clean_text queue_name) headers
      ⟨h, List.mem_of_mem_drop hh, beq_iff_eq.mpr hcl⟩
    unfold _column_index
    cases hfi : headers.findIdx? fun x => _clean_text x == _clean_text queue_name with
    | none => rw [hfi] at hsome; exact absurd hsome (by decide)
    | some i =>
      show ¬ ((i : Int) < 0)
      omega
  have hc1 : ¬ ((¬ ∃ p ∈ (build_schedule_map headers rows).2,
      p.1 = _clean_text queue_name) ∨ (build_schedule_map headers rows).1 = []) := by
    rintro (hno | hnil)
    · exact hno hcols
    · exact hne hnil
  have hres : intervals_for_queue queue_name headers rows =
      (mergeRuns ((build_schedule_map headers rows).1.enum.map fun p =>
        (p.2, _cell_state_by_color (_clean_text queue_name) ((rows.getD p.1 []).getD
          (_column_index headers (_clean_text queue_name)).toNat ""))),
       (build_schedule_map headers rows).2.map Prod.fst) := by
    unfold intervals_for_queue
    dsimp only
    rw [if_neg hc1, if_neg hci]
  rw [hres]
  exact mergeRuns_props (build_schedule_map headers rows).1
    (fun p => _cell_state_by_color (_clean_text queue_name) ((rows.getD p.1 []).getD
      (_column_index headers (_clean_text queue_name)).toNat ""))
    hne (build_times_lt headers rows) hmono

/-- Witness for C1 at the specification's scenario table. -/
theorem claim1_witness :
    (intervals_for_queue "1.1" ["Час", "1.1", "1.2"]
        [["08:00-09:00", "1.1\x7bitem-off|\x7d", "ok"],
         ["09:00-10:00", "ok", "1.2\x7bitem-off|\x7d"]]).1.length ≤
      (build_schedule_map ["Час", "1.1", "1.2"]
        [["08:00-09:00", "1.1\x7bitem-off|\x7d", "ok"],
         ["09:00-10:00", "ok", "1.2\x7bitem-off|\x7d"]]).1.length ∧
    (intervals_for_queue "1.1" ["Час", "1.1", "1.2"]
        [["08:00-09:00", "1.1\x7bitem-off|\x7d", "ok"],
         ["09:00-10:00", "ok", "1.2\x7bitem-off|\x7d"]]).1.Pairwise
      (fun p q => p.1 ≤ q.1) ∧
    (intervals_for_queue "1.1" ["Час", "1.1", "1.2"]
        [["08:00-09:00", "1.1\x7bitem-off|\x7d", "ok"],
         ["09:00-10:00", "ok", "1.2\x7bitem-off|\x7d"]]).1.Pairwise
      (fun p q => p.2.1 ≤ q.1) ∧
    ∀ x : Nat,
      (∃ iv ∈ (intervals_for_queue "1.1" ["Час", "1.1", "1.2"]
          [["08:00-09:00", "1.1\x7bitem-off|\x7d", "ok"],
           ["09:00-10:00", "ok", "1.2\x7bitem-off|\x7d"]]).1, iv.1 ≤ x ∧ x < iv.2.1) ↔
        (((build_schedule_map ["Час", "1.1", "1.2"]
            [["08:00-09:00", "1.1\x7bitem-off|\x7d", "ok"],
             ["09:00-10:00", "ok", "1.2\x7bitem-off|\x7d"]]).1.headD (0, 0)).1 ≤ x ∧
          x < ((build_schedule_map ["Час", "1.1", "1.2"]
            [["08:00-09:00", "1.1\x7bitem-off|\x7d", "ok"],
             ["09:00-10:00", "ok", "1.2\x7bitem-off|\x7d"]]).1.getLastD (0, 0)).2) :=
  claim1 "1.1" ["Час", "1.1", "1.2"]
    [["08:00-09:00", "1.1\x7bitem-off|\x7d", "ok"],
     ["09:00-10:00", "ok", "1.2\x7bitem-off|\x7d"]]
    (by decide) (by decide)
    (by
      have hb : (build_schedule_map ["Час", "1.1", "1.2"]
          [["08:00-09:00", "1.1\x7bitem-off|\x7d", "ok"],
           ["09:00-10:00", "ok", "1.2\x7bitem-off|\x7d"]]).1 =
          [(480, 540), (540, 600)] := by decide
      rw [hb]
      exact List.chain'_cons.mpr ⟨by decide, List.chain'_singleton _⟩)

/-- A join splits around any distinguished element, with surrounding
parts independent of that element. -/
theorem joinSep_split (sep : List Char) : ∀ (pre : List (List Char)) (m : List Char)
    (suf : List (List Char)),
    joinSep sep (pre ++ m :: suf) = joinPre sep pre ++ (m ++ joinSuf sep suf) := by
  intro pre
  induction pre with
  | nil =>
    intro m suf
    cases suf with
    | nil => simp [joinSep, joinPre, joinSuf]
    | cons y rest => simp [joinSep, joinPre, joinSuf]
  | cons a pre2 ih =>
    intro m suf
    cases hp : pre2 ++ m :: suf with
    | nil => exact absurd hp (by simp)
    | cons hd tl =>
      have h1 : joinSep sep (a :: (pre2 ++ m :: suf)) = a ++ sep ++ joinSep sep (hd :: tl) := by
        rw [hp, joinSep]
      rw [List.cons_append, h1, ← hp, ih]
      show a ++ sep ++ (joinPre sep pre2 ++ (m ++ joinSuf sep suf)) =
        (a ++ sep ++ joinPre sep pre2) ++ (m ++ joinSuf sep suf)
      simp [List.append_assoc]

/-- Strings with equal character data are equal. -/
theorem string_data_eq {x y : String} (h : x.data = y.data) : x = y := by
  cases x
  cases y
  exact congrArg String.mk (by simpa using h)

/-- Changing exactly one cell (all other cells, the row shape and the
headers unchanged) changes the signature payload. -/
theorem payload_one_cell_diff (headers : List String) (pre suf : List (List String))
    (p s : List String) (x y : String) (hxy : x ≠ y) :
    payloadChars headers (pre ++ (p ++ x :: s) :: suf) ≠
      payloadChars headers (pre ++ (p ++ y :: s) :: suf) := by
  intro heq
  unfold payloadChars at heq
  have hrow : ∀ z : String, joinSep ['|'] ((p ++ z :: s).map String.data) =
      joinPre ['|'] (p.map String.data) ++ (z.data ++ joinSuf ['|'] (s.map String.data)) := by
    intro z
    rw [List.map_append, List.map_cons, joinSep_split]
  have houter : ∀ z : String,
      joinSep ['\n'] ((pre ++ (p ++ z :: s) :: suf).map
        fun r => joinSep ['|'] (r.map String.data)) =
      joinPre ['\n'] (pre.map fun r => joinSep ['|'] (r.map String.data)) ++
        ((joinPre ['|'] (p.map String.data) ++ (z.data ++ joinSuf ['|'] (s.map String.data))) ++
          joinSuf ['\n'] (suf.map fun r => joinSep ['|'] (r.map String.data))) := by
    intro z
    rw [List.map_append, List.map_cons, joinSep_split, hrow]
  have h1 := List.append_cancel_left heq
  injection h1 with _ h2
  rw [houter x, houter y] at h2
  have h3 := List.append_cancel_left h2
  have h4 := List.append_cancel_right h3
  have h5 := List.append_cancel_left h4
  have h6 := List.append_cancel_right h5
  exact hxy (string_data_eq h6)

/-- The compression step always yields eight state words. -/
theorem shaCompress_length (H block : List Nat) : (shaCompress H block).length = 8 := by
  unfold shaCompress
  rw [List.length_map, List.length_range]

/-- SHA-256 always yields eight state words. -/
theorem sha256Words_length (msg : List Nat) : (sha256Words msg).length = 8 := by
  unfold sha256Words
  dsimp only
  generalize List.range ((shaPad msg).length / 64) = l
  have hgen : ∀ (l2 : List Nat) (H : List Nat), H.length = 8 →
      (l2.foldl (fun H2 i => shaCompress H2 ((shaPad msg).drop (64 * i) |>.take 64)) H).length
        = 8 := by
    intro l2
    induction l2 with
    | nil => intro H h; exact h
    | cons a t ih => intro H _; exact ih _ (shaCompress_length _ _)
  exact hgen l shaH0 (by decide)

/-- The big-endian value of a word list is bounded by its width. -/
theorem wordsToNat_lt : ∀ l : List Nat, wordsToNat l < 4294967296 ^ l.length := by
  intro l
  induction l with
  | nil => decide
  | cons w ws ih =>
    rw [wordsToNat, List.length_cons]
    have h1 : w % 4294967296 < 4294967296 := Nat.mod_lt _ (by norm_num)
    have hm : 0 < 4294967296 ^ ws.length := pow_pos (by norm_num) _
    calc w % 4294967296 * 4294967296 ^ ws.length + wordsToNat ws
        < w % 4294967296 * 4294967296 ^ ws.length + 4294967296 ^ ws.length := by omega
      _ = (w % 4294967296 + 1) * 4294967296 ^ ws.length := by ring
      _ ≤ 4294967296 * 4294967296 ^ ws.length :=
          Nat.mul_le_mul_right _ (by omega)
      _ = 4294967296 ^ (ws.length + 1) := by rw [pow_succ]; ring

/-- The SHA-256 digest value is below 2^256. -/
theorem sha256Nat_lt (msg : List Nat) : sha256Nat msg < 4294967296 ^ 8 := by
  have h := wordsToNat_lt (sha256Words msg)
  rw [sha256Words_length] at h
  exact h

/-- C3 as claimed is false: SHA-256 maps the infinitely many tables
`([""], [[c]])` — any two of which differ in exactly one cell — into
finitely many 256-bit digests, so two distinct cell values share a
fingerprint (nonconstructive pigeonhole; no explicit collision is
known, but the universal claim cannot hold). -/
theorem claim3_counterexample : ∃ c1 c2 : String, c1 ≠ c2 ∧
    table_signature [""] [[c1]] = table_signature [""] [[c2]] := by
  obtain ⟨c1, c2, hne, heq⟩ := Finite.exists_ne_map_eq_of_infinite
    fun c : String => (⟨sha256Nat (utf8Bytes (payloadChars [""] [[c]])),
      sha256Nat_lt _⟩ : Fin (4294967296 ^ 8))
  refine ⟨c1, c2, hne, ?_⟩
  have hval : sha256Nat (utf8Bytes (payloadChars [""] [[c1]])) =
      sha256Nat (utf8Bytes (payloadChars [""] [[c2]])) := congrArg Fin.val heq
  unfold table_signature
  rw [hval]

/-- C3 amended: equal tables (headers, rows and style metadata byte
for byte) always yield equal fingerprints; tables differing in exactly
one cell yield different signature payloads — the exact byte strings
that are hashed — though SHA-256 itself, as a finite-range function,
cannot turn that into distinct digests for every such pair. -/
theorem claim3 :
    (∀ (h1 : List String) (r1 : List (List String)) h2 r2, h1 = h2 → r1 = r2 →
      table_signature h1 r1 = table_signature h2 r2) ∧
    (∀ (headers : List String) (pre suf : List (List String)) (p s : List String)
      (x y : String), x ≠ y →
      payloadChars headers (pre ++ (p ++ x :: s) :: suf) ≠
        payloadChars headers (pre ++ (p ++ y :: s) :: suf)) := by
  constructor
  · rintro h1 r1 _ _ rfl rfl
    rfl
  · exact payload_one_cell_diff

/-- Witness for C3: a same-table signature equality and a concrete
one-cell payload difference. -/
theorem claim3_witness :
    table_signature ["a"] [["b", "c"]] = table_signature ["a"] [["b", "c"]] ∧
    payloadChars ["a"] ([] ++ (["b"] ++ "c" :: []) :: []) ≠
      payloadChars ["a"] ([] ++ (["b"] ++ "d" :: []) :: []) :=
  ⟨claim3.1 ["a"] [["b", "c"]] ["a"] [["b", "c"]] rfl rfl,
   claim3.2 ["a"] [] [] ["b"] [] "c" "d" (by decide)⟩
